import Mathlib

/-!
Verification of the Finshots enrichment pipeline (`finshots_final.py`).

The Python source is shallowly embedded: strings are `List Char` / `String`,
Python `float` results of `round(x, k)` are modelled as exact rationals with
round-half-to-even, the regex operations of the source are embedded as
explicit scanners whose behaviour matches the leftmost, non-overlapping
semantics of `re.search` / `re.sub` / `re.findall` on the concrete patterns
appearing in the source, and `collections.Counter.most_common` is modelled by
a stable descending sort over the first-occurrence key order (CPython dicts
iterate in insertion order and `most_common` sorts stably by count).
Character classes (`\w`, `\s`, `[A-Za-z0-9']`, ...) are modelled over ASCII.
-/

namespace Finshots

/-- Lowercase a character list, modelling Python `str.lower` over ASCII. -/
def lcs (l : List Char) : List Char := l.map Char.toLower

/-- Model of the Python regex class `\w` (ASCII): letters, digits, underscore. -/
def isWordChar (c : Char) : Bool := c.isAlphanum || c == '_'

/-- Model of the Python regex class `\s` (ASCII whitespace). -/
def pySpace (c : Char) : Bool :=
  c == ' ' || c == '\t' || c == '\n' || c == '\r' || c == '\x0b' || c == '\x0c'

/-- Strip ASCII whitespace from both ends, modelling Python `str.strip()`. -/
def pyStripChars (l : List Char) : List Char :=
  ((l.dropWhile pySpace).reverse.dropWhile pySpace).reverse

/-- String wrapper for `pyStripChars`. -/
def pyStrip (s : String) : String := String.mk (pyStripChars s.toList)

/-- Character class `[A-Za-z0-9']` of the word regex in `tokenize_words`. -/
def tokChar (c : Char) : Bool :=
  (('A' ≤ c && c ≤ 'Z') || ('a' ≤ c && c ≤ 'z') || ('0' ≤ c && c ≤ '9') || c == '\'')

/-- Maximal runs of characters satisfying `p`; runs are returned in order and
separator characters are dropped.  `acc` is the current run, reversed. -/
def runsAux (p : Char → Bool) : List Char → List Char → List (List Char)
  | acc, [] => if acc.isEmpty then [] else [acc.reverse]
  | acc, c :: cs =>
    if p c then runsAux p (c :: acc) cs
    else if acc.isEmpty then runsAux p [] cs
    else acc.reverse :: runsAux p [] cs

/-- Embedding of `tokenize_words` (line 76): `re.findall(r"[A-Za-z0-9']{2,}",
text.lower())`.  For a character-class repetition the regex findall returns
exactly the maximal class-character runs of length at least 2. -/
def tokenize_words (text : String) : List String :=
  ((runsAux tokChar [] (lcs text.toList)).filter (fun r => 2 ≤ r.length)).map String.mk

/-- The positive sentiment lexicon `POS_WORDS` (line 33). -/
def POS_WORDS : List String :=
  ["good", "great", "positive", "gain", "gains", "rise", "up", "beat", "beats",
   "profit", "growth", "improve", "surge", "strong", "optimistic", "bull"]

/-- The negative sentiment lexicon `NEG_WORDS` (line 34). -/
def NEG_WORDS : List String :=
  ["bad", "worse", "negative", "loss", "losses", "fall", "down", "miss", "missed",
   "drop", "weak", "decline", "declining", "bear", "pessimistic", "crash"]

/-- The stopword set `STOPWORDS` (lines 26-31). -/
def STOPWORDS : List String :=
  ["the", "and", "a", "an", "in", "on", "for", "to", "of", "is", "are", "was", "were",
   "by", "with", "as", "that", "this", "it", "from", "at", "be", "has", "have", "had",
   "but", "or", "not", "we", "they", "he", "she", "I", "you", "your", "our", "us", "their",
   "which", "will", "its", "can", "about", "more", "after", "also", "one", "all", "new"]

/-- Count of tokens of `text` that lie in the positive lexicon (line 114). -/
def posCount (text : String) : Nat :=
  ((tokenize_words text).filter (fun w => decide (w ∈ POS_WORDS))).length

/-- Count of tokens of `text` that lie in the negative lexicon (line 115). -/
def negCount (text : String) : Nat :=
  ((tokenize_words text).filter (fun w => decide (w ∈ NEG_WORDS))).length

/-- Round half to even at integer precision, modelling Python `round` on an
exact rational value. -/
def halfEvenRound (q : ℚ) : ℤ :=
  if q - ⌊q⌋ < 1/2 then ⌊q⌋
  else if (1:ℚ)/2 < q - ⌊q⌋ then ⌊q⌋ + 1
  else if (⌊q⌋ : ℤ) % 2 = 0 then ⌊q⌋ else ⌊q⌋ + 1

/-- Model of Python `round(q, n)` on an exact rational value. -/
def pyRound (n : Nat) (q : ℚ) : ℚ := (halfEvenRound (q * 10 ^ n) : ℚ) / 10 ^ n

/-- Embedding of `simple_sentiment` (lines 112-118): lexicon counts over the
token stream, `0.0` when no lexicon token occurs, else the rounded ratio. -/
def simple_sentiment (text : String) : ℚ :=
  if posCount text + negCount text = 0 then 0
  else pyRound 3 (((posCount text : ℚ) - (negCount text : ℚ)) /
                  ((posCount text : ℚ) + (negCount text : ℚ)))

/-- Count of transitions into a vowel run, the main loop of
`estimate_syllables` (lines 90-97); the `Bool` is `prev_vowel`. -/
def vowelRuns : Bool → List Char → Nat
  | _, [] => 0
  | prev, c :: cs =>
    if (c == 'a' || c == 'e' || c == 'i' || c == 'o' || c == 'u' || c == 'y') then
      (if prev then 0 else 1) + vowelRuns true cs
    else vowelRuns false cs

/-- Embedding of `estimate_syllables` (lines 85-102): lowercase, keep only
letters `a`-`z`, count vowel runs, apply the silent-`e` rule, floor at 1. -/
def estimate_syllables (w : String) : Nat :=
  let word := (lcs w.toList).filter (fun c => 'a' ≤ c && c ≤ 'z')
  if word.isEmpty then 0
  else
    let s1 := vowelRuns false word
    let s2 := if word.getLast? = some 'e' && decide (1 < s1) then s1 - 1 else s1
    if s2 = 0 then 1 else s2

/-- Decode a decimal numeric character reference body, used by `unescape`. -/
def numericRef (l : List Char) : Option (Char × List Char) :=
  let (ds, rest) := l.span Char.isDigit
  match rest with
  | ';' :: r =>
    if ds.isEmpty then none
    else
      let n := ds.foldl (fun a c => a * 10 + (c.toNat - 48)) 0
      if n < 0xD800 then some (Char.ofNat n, r) else none
  | _ => none

/-- Named entities understood by the `unescape` model, longest name first.
Model of Python `html.unescape` restricted to the basic entities `amp`, `lt`,
`gt`, `quot`, `apos` (with and, where HTML5 allows it, without a trailing
semicolon) and decimal numeric references below the surrogate range; any
other text, including unknown entities, passes through unchanged. -/
def namedEnts : List (List Char × Char) :=
  [("amp;".toList, '&'), ("apos;".toList, '\''), ("quot;".toList, '"'),
   ("lt;".toList, '<'), ("gt;".toList, '>'),
   ("amp".toList, '&'), ("quot".toList, '"'), ("lt".toList, '<'), ("gt".toList, '>')]

/-- Look up the first named entity that is a prefix of `l`. -/
def matchEnt (l : List Char) : Option (Char × List Char) :=
  match namedEnts.find? (fun e => e.1.isPrefixOf l) with
  | some e => some (e.2, l.drop e.1.length)
  | none => none

/-- Fuel-driven scanner for `unescapeChars`; the fuel is an upper bound on the
number of characters consumed and each step consumes at least one. -/
def unescapeAux : Nat → List Char → List Char
  | 0, s => s
  | _ + 1, [] => []
  | fuel + 1, c :: cs =>
    if c == '&' then
      match matchEnt cs with
      | some (e, rest) => e :: unescapeAux fuel rest
      | none =>
        match cs with
        | '#' :: ds =>
          match numericRef ds with
          | some (e, rest) => e :: unescapeAux fuel rest
          | none => c :: unescapeAux fuel cs
        | _ => c :: unescapeAux fuel cs
    else c :: unescapeAux fuel cs

/-- Model of Python `html.unescape` (see `namedEnts` for its scope). -/
def unescapeChars (s : List Char) : List Char := unescapeAux s.length s

/-- Split at the first occurrence of the character `ch`: returns the part
before it (which contains no `ch`) and the part after it. -/
def splitAtChar (ch : Char) : List Char → Option (List Char × List Char)
  | [] => none
  | c :: cs =>
    if c == ch then some ([], cs)
    else (splitAtChar ch cs).map (fun p => (c :: p.1, p.2))

/-- Split at the first case-insensitive occurrence of `pat` (given lowercase):
returns the part before the occurrence and the part after it.  This is the
leftmost-match semantics of a non-greedy `(.*?)pat` search. -/
def splitAtPatCI (pat : List Char) : List Char → Option (List Char × List Char)
  | [] => if pat.isEmpty then some ([], []) else none
  | c :: cs =>
    if pat.isPrefixOf (lcs (c :: cs)) then some ([], (c :: cs).drop pat.length)
    else (splitAtPatCI pat cs).map (fun p => (c :: p.1, p.2))

/-- Scanner for the opening-tag pattern `<tag\b[^>]*>` with flags `re.I|re.S`
(`tag` given lowercase): finds the leftmost position where `<tag` matches
case-insensitively, the following character is not a word character (the
`\b`), and a `>` follows; returns the remainder after that `>`.  On a failed
attempt the scan resumes one character later, as the regex engine does. -/
def findOpen (tag : List Char) : List Char → Option (List Char)
  | [] => none
  | c :: cs =>
    if ('<' :: tag).isPrefixOf (lcs (c :: cs)) then
      match (c :: cs).drop (tag.length + 1) with
      | [] => findOpen tag cs
      | d :: ds =>
        if isWordChar d then findOpen tag cs
        else
          match splitAtChar '>' (d :: ds) with
          | some p => some p.2
          | none => findOpen tag cs
    else findOpen tag cs

/-- The closing-tag literal `</tag>` for a lowercase `tag`. -/
def closePat (tag : List Char) : List Char := '<' :: '/' :: (tag ++ ['>'])

/-- Scanner for `re.search(r"<tag\b[^>]*>(.*?)</tag>", s, re.I|re.S)` (lines
58 and 62): the captured group of the leftmost match.  If the first opening
tag with a `>` has no closing tag after it, no later opening tag has one
either (closing tags after a later `>` lie after the first `>`), so the
search fails exactly when the close is missing after the first open. -/
def searchBlock (tag : List Char) (s : List Char) : Option (List Char) :=
  match findOpen tag s with
  | none => none
  | some rest =>
    match splitAtPatCI (closePat tag) rest with
    | some p => some p.1
    | none => none

/-- Scanner for `re.findall(r"<p\b[^>]*>(.*?)</p>", s, re.I|re.S)` (line 66):
captured groups of the non-overlapping leftmost matches, scanning resuming
after each match. -/
def findAllPAux : Nat → List Char → List (List Char)
  | 0, _ => []
  | fuel + 1, s =>
    match findOpen ['p'] s with
    | none => []
    | some rest =>
      match splitAtPatCI (closePat ['p']) rest with
      | some p => p.1 :: findAllPAux fuel p.2
      | none => []

/-- Wrapper for `findAllPAux`; each match consumes at least one character, so
the length of the input bounds the number of matches. -/
def findAllP (s : List Char) : List (List Char) := findAllPAux s.length s

/-- Scanner for `re.sub(r"<tag.*?>.*?</tag>", " ", s, re.S|re.I)` (lines
69-70, `tag` is `script` or `style`): each leftmost match — `<tag`, then
everything up to the first `>`, then everything up to the first `</tag>` —
is replaced by a single space; on a failed attempt the scan moves on by one
character. -/
def subBlockAux (tag : List Char) : Nat → List Char → List Char
  | 0, s => s
  | _ + 1, [] => []
  | fuel + 1, c :: cs =>
    if ('<' :: tag).isPrefixOf (lcs (c :: cs)) then
      match splitAtChar '>' ((c :: cs).drop (tag.length + 1)) with
      | some p =>
        match splitAtPatCI (closePat tag) p.2 with
        | some q => ' ' :: subBlockAux tag fuel q.2
        | none => c :: subBlockAux tag fuel cs
      | none => c :: subBlockAux tag fuel cs
    else c :: subBlockAux tag fuel cs

/-- Wrapper for `subBlockAux` with the input length as fuel. -/
def subBlock (tag : List Char) (s : List Char) : List Char := subBlockAux tag s.length s

/-- Scanner for `re.sub(r"<[^>]+>", " ", s)` (line 71): every `<`, at least
one non-`>` character, and a `>` collapse to one space; a `<>` or an
unterminated `<` is left in place. -/
def stripTagsAux : Nat → List Char → List Char
  | 0, s => s
  | _ + 1, [] => []
  | fuel + 1, c :: cs =>
    if c == '<' then
      match splitAtChar '>' cs with
      | some p => if p.1.isEmpty then c :: stripTagsAux fuel cs else ' ' :: stripTagsAux fuel p.2
      | none => c :: stripTagsAux fuel cs
    else c :: stripTagsAux fuel cs

/-- Wrapper for `stripTagsAux` with the input length as fuel. -/
def stripTags (s : List Char) : List Char := stripTagsAux s.length s

/-- Scanner for `re.sub(r"\s+", " ", s)` (line 73): each whitespace run
becomes a single space; the `Bool` records whether the previous character
was whitespace. -/
def collapseWsAux : Bool → List Char → List Char
  | _, [] => []
  | prev, c :: cs =>
    if pySpace c then
      if prev then collapseWsAux true cs else ' ' :: collapseWsAux true cs
    else c :: collapseWsAux false cs

/-- The cleanup pipeline applied to the selected content (lines 69-73):
remove `<script>` and `<style>` blocks, strip the remaining tags, collapse
whitespace and trim the ends. -/
def cleanContent (content : List Char) : List Char :=
  pyStripChars (collapseWsAux false (stripTags (subBlock "style".toList (subBlock "script".toList content))))

/-- Content selection of `extract_text_from_html` after entity decoding
(lines 58-67): an `<article>` block, else a `<main>` block, else all `<p>`
blocks joined by newlines; the chosen content then runs through
`cleanContent`. -/
def extractFromDecoded (d : List Char) : List Char :=
  match searchBlock "article".toList d with
  | some content => cleanContent content
  | none =>
    match searchBlock "main".toList d with
    | some content => cleanContent content
    | none => cleanContent (List.intercalate ['\n'] (findAllP d))

/-- Embedding of `extract_text_from_html` (lines 53-74). -/
def extract_text_from_html (s : String) : String :=
  if s = "" then "" else String.mk (extractFromDecoded (unescapeChars s.toList))

/-- Keys of a list in first-occurrence order, without duplicates.  This is the
iteration order of a CPython `dict` / `Counter` built by counting `l`. -/
def firstOccList : List String → List String
  | [] => []
  | w :: ws => w :: (firstOccList ws).filter (fun x => x != w)

/-- Ranking relation of `Counter(l).most_common`: higher count first, and for
equal counts the key first inserted — equivalently the key whose first
occurrence in `l` is earlier — first.  On the duplicate-free key list this
total order is exactly the stable descending sort `most_common` performs. -/
def rankRel (l : List String) (a b : String) : Prop :=
  l.count b < l.count a ∨ (l.count a = l.count b ∧ l.indexOf a ≤ l.indexOf b)

instance (l : List String) : DecidableRel (rankRel l) := fun a b =>
  decidable_of_iff
    (l.count b < l.count a ∨ (l.count a = l.count b ∧ l.indexOf a ≤ l.indexOf b)) Iff.rfl

/-- Model of `Counter(l).most_common(n)` keys: the distinct values of `l` in
first-occurrence order, stably sorted by descending count, truncated to `n`.
CPython's `most_common` is documented as `sorted` (stable) on the counter
items by descending count, and the counter iterates in insertion order. -/
def mostCommon (l : List String) (n : Nat) : List String :=
  (List.insertionSort (rankRel l) (firstOccList l)).take n

/-- The qualifying-token filter of `top_keywords` (line 122): keep tokens that
are not stopwords, are longer than 2 characters and are not purely numeric
(`str.isdigit` over ASCII digits). -/
def pyIsDigit (w : String) : Bool := !w.toList.isEmpty && w.toList.all Char.isDigit

/-- Qualifying tokens of `top_keywords` (line 122). -/
def qualifying (text : String) : List String :=
  (tokenize_words text).filter
    (fun w => decide (w ∉ STOPWORDS) && decide (2 < w.length) && !pyIsDigit w)

/-- The ranked keyword list of `top_keywords` before joining (lines 125-126). -/
def topKeywordsList (text : String) : List String := mostCommon (qualifying text) 8

/-- Embedding of `top_keywords` (lines 120-127) with the default `n = 8`. -/
def top_keywords (text : String) : String :=
  if (qualifying text).isEmpty then "" else String.intercalate ", " (topKeywordsList text)

/-- Split into chunks of consecutive capitalized words, used by the entity
regex model: a capitalized word is `[A-Z][a-z0-9]{1,}`, an uppercase letter
followed by a maximal nonempty run of lowercase letters or digits. -/
def capWordSplit : List Char → Option (List Char × List Char)
  | [] => none
  | c :: cs =>
    if c.isUpper then
      let p := cs.span (fun d => d.isLower || d.isDigit)
      if p.1.isEmpty then none else some (c :: p.1, p.2)
    else none

/-- Greedily grab `(whitespace-run, capitalized-word)` pairs, the
`(?:\s+[A-Z][a-z0-9]{1,})*` part of the entity regex; returns the pairs and
the remainder.  The fuel bounds the characters consumed. -/
def grabPairs : Nat → List Char → List (List Char × List Char) × List Char
  | 0, s => ([], s)
  | fuel + 1, s =>
    let p := s.span pySpace
    if p.1.isEmpty then ([], s)
    else
      match capWordSplit p.2 with
      | none => ([], s)
      | some (w, r2) =>
        let q := grabPairs fuel r2
        ((p.1, w) :: q.1, q.2)

/-- The span matched by one entity candidate: the first word and the grabbed
pairs with their original separators. -/
def entSpan (w1 : List Char) (ps : List (List Char × List Char)) : List Char :=
  w1 ++ (ps.map (fun p => p.1 ++ p.2)).flatten

/-- Check that scanning may stop here: the regex trailing `\b` holds when the
next character is absent or not a word character. -/
def afterOk : List Char → Bool
  | [] => true
  | d :: _ => !isWordChar d

/-- Scanner for `re.findall(r"\b([A-Z][a-z0-9]{1,}\s+[A-Z][a-z0-9]{1,}`
`(?:\s+[A-Z][a-z0-9]{1,})*)\b", text)` (line 130).  The `Bool` records
whether the previous character is a word character (for the leading `\b`).
A candidate needs at least two capitalized words; when the character after
the greedily grabbed last word is a word character the regex engine drops the
last `(?:\s+word)` group (after which the `\b` holds, the next character
being whitespace); a failed attempt advances the scan by one character, and a
match resumes the scan right after its span. -/
def entScanAux : Nat → Bool → List Char → List (List Char)
  | 0, _, _ => []
  | _ + 1, _, [] => []
  | fuel + 1, prevW, c :: cs =>
    match (if prevW then none else capWordSplit (c :: cs)) with
    | none => entScanAux fuel (isWordChar c) cs
    | some (w1, r1) =>
      let g := grabPairs (r1.length) r1
      match g.1 with
      | [] => entScanAux fuel (isWordChar c) cs
      | p1 :: prest =>
        if afterOk g.2 then
          entSpan w1 (p1 :: prest) :: entScanAux fuel true g.2
        else
          match (p1 :: prest).dropLast with
          | [] => entScanAux fuel (isWordChar c) cs
          | q1 :: qrest =>
            let lastp := (p1 :: prest).getLast (by simp)
            entSpan w1 (q1 :: qrest) :: entScanAux fuel true (lastp.1 ++ lastp.2 ++ g.2)

/-- Python `str.split()`: maximal non-whitespace runs. -/
def pySplitWs (l : List Char) : List (List Char) := runsAux (fun c => !pySpace c) [] l

/-- The filter of `extract_entities_simple` (lines 132-135) with the default
`min_len = 2`: at least two whitespace-separated words, one longer than 2. -/
def entOk (m : List Char) : Bool :=
  2 ≤ (pySplitWs m).length && (pySplitWs m).any (fun w => 2 < w.length)

/-- Embedding of `extract_entities_simple` (lines 129-140) with the defaults
`min_len = 2`, `top_n = 6`. -/
def extract_entities_simple (text : String) : String :=
  let cleaned := ((entScanAux text.toList.length false text.toList).filter entOk).map
    (fun m => String.mk (pyStripChars m))
  if cleaned.isEmpty then "" else String.intercalate ", " (mostCommon cleaned 6)

/-- Scanner for `re.split(r"[.!?]\s+", t)` (line 81): fragments between
non-overlapping matches of one sentence punctuation character followed by a
maximal whitespace run; `acc` is the current fragment, reversed. -/
def splitSentAux : Nat → List Char → List Char → List (List Char)
  | 0, acc, s => [acc.reverse ++ s]
  | _ + 1, acc, [] => [acc.reverse]
  | fuel + 1, acc, c :: cs =>
    if (c == '.' || c == '!' || c == '?') then
      match cs with
      | d :: _ =>
        if pySpace d then acc.reverse :: splitSentAux fuel [] (cs.dropWhile pySpace)
        else splitSentAux fuel (c :: acc) cs
      | [] => splitSentAux fuel (c :: acc) cs
  else splitSentAux fuel (c :: acc) cs

/-- Embedding of `sentence_count` (lines 80-83): split the stripped text at
sentence punctuation followed by whitespace, drop fragments that are blank,
floor the count at 1. -/
def sentence_count (text : String) : Nat :=
  let t := pyStripChars text.toList
  max 1 ((splitSentAux t.length [] t).filter (fun f => !(pyStripChars f).isEmpty)).length

/-- Embedding of `flesch_reading_ease` (lines 104-110); the float literals
`206.835`, `1.015` and `84.6` are the exact rationals they denote in source. -/
def flesch_reading_ease (text : String) : ℚ :=
  let words := tokenize_words text
  let W : Nat := max 1 words.length
  let S : Nat := sentence_count text
  let syllables : Nat := (words.map estimate_syllables).sum
  pyRound 2 (206835/1000 - 1015/1000 * ((W : ℚ) / (S : ℚ)) - 846/10 * ((syllables : ℚ) / (W : ℚ)))

/-- A cell value of an enriched column: Python writes strings, ints and
floats into the row dictionary; floats are modelled as exact rationals. -/
inductive CellVal where
  | vStr (s : String)
  | vNat (n : Nat)
  | vRat (q : ℚ)
deriving DecidableEq

/-- A row of the input table, as `csv.DictReader` delivers it and as `main`
mutates it (lines 142-201).  `none` models a column absent from the input
file; the crawler contract columns `date`, `theme`, `title` are carried
through untouched. -/
structure Row where
  url : Option String := none
  date : Option String := none
  theme : Option String := none
  title : Option String := none
  content_simple : Option String := none
  word_count : Option CellVal := none
  reading_time_min : Option CellVal := none
  flesch_simple : Option CellVal := none
  sentiment_simple : Option CellVal := none
  top_keywords : Option CellVal := none
  entities_simple : Option CellVal := none
deriving DecidableEq

/-- Python truthiness of `row.get("content_simple")` (line 158): the column
exists and is a nonempty string. -/
def truthyStr : Option String → Bool
  | none => false
  | some s => !s.isEmpty

/-- The blank-url branch (lines 163-167): every enriched column, including
`content_simple`, is set to the empty string. -/
def blankRow (r : Row) : Row :=
  { r with content_simple := some "", word_count := some (.vStr ""),
           reading_time_min := some (.vStr ""), flesch_simple := some (.vStr ""),
           sentiment_simple := some (.vStr ""), top_keywords := some (.vStr ""),
           entities_simple := some (.vStr "") }

/-- The fetch-and-enrich branch (lines 169-187): fetch, extract, compute all
derived fields and merge them into the row.  `fetch` stands for `fetch_html`,
the external HTTP collaborator (a failed fetch is `fetch` returning `""`). -/
def enrichRow (fetch : String → String) (url : String) (r : Row) : Row :=
  let html_text := fetch url
  let content := extract_text_from_html html_text
  let wc := (tokenize_words content).length
  { r with
    content_simple := some content,
    word_count := some (.vNat wc),
    reading_time_min := some (.vRat (pyRound 2 ((wc : ℚ) / 200))),
    flesch_simple := some (if 0 < wc then .vRat (flesch_reading_ease content) else .vStr ""),
    sentiment_simple := some (.vRat (if 0 < wc then simple_sentiment content else 0)),
    top_keywords := some (.vStr (top_keywords content)),
    entities_simple := some (.vStr (extract_entities_simple html_text)) }

/-- One loop iteration of `main` (lines 157-187) on one row: the returned
`Bool` is `true` exactly when a fetch was attempted this iteration. -/
def stepRow (fetch : String → String) (r : Row) : Row × Bool :=
  if truthyStr r.content_simple then (r, false)
  else
    let url := pyStrip (r.url.getD "")
    if url = "" then (blankRow r, false)
    else (enrichRow fetch url r, true)

/-- The processing loop of `main` (lines 157-195), starting at 0-based row
index `idx`: returns the final rows, the 1-based indices of rows for which a
fetch was attempted, and the 1-based indices at which a checkpoint file was
written — inside the fetch branch, when `(idx + 1) % 10 == 0` (line 189). -/
def runRowsAux (fetch : String → String) : Nat → List Row → List Row × List Nat × List Nat
  | _, [] => ([], [], [])
  | idx, r :: rs =>
    let p := stepRow fetch r
    let q := runRowsAux fetch (idx + 1) rs
    (p.1 :: q.1,
     (if p.2 then [idx + 1] else []) ++ q.2.1,
     (if p.2 && (idx + 1) % 10 == 0 then [idx + 1] else []) ++ q.2.2)

/-- The whole enrichment run of `main` over the input table: final table,
fetched row indices, checkpoint row indices (all 1-based). -/
def runRows (fetch : String → String) (rows : List Row) : List Row × List Nat × List Nat :=
  runRowsAux fetch 0 rows

/-- The 1-based row indices at which line 189 fires over `n` consecutive
fetched rows starting at 0-based index `idx`: those `idx + k + 1` divisible
by 10. -/
def cadence (idx : Nat) : Nat → List Nat
  | 0 => []
  | n + 1 => (if (idx + 1) % 10 == 0 then [idx + 1] else []) ++ cadence (idx + 1) n

/-- A fetch collaborator whose every request fails: `fetch_html` returns the
empty string on any error (lines 46-51). -/
def fetchEmpty : String → String := fun _ => ""

/-- A row that a previous run has already enriched. -/
def rowDone : Row := { url := some "http://x/u", content_simple := some "done" }

/-- A fresh row: a nonblank url and no `content_simple` column yet. -/
def rowFresh : Row := { url := some "http://x/u" }

/-- The fetch collaborator of the end-to-end scenario of the specification:
every request returns the fixed article HTML. -/
def fetchC3 : String → String :=
  fun _ => "<article><p>Good growth, strong profit.</p></article>"

/-- The input row of the end-to-end scenario. -/
def rowC3 : Row :=
  { url := some "http://x/a", date := some "2020-01-01", theme := some "markets",
    title := some "A" }

instance (l : List String) : IsTotal String (rankRel l) := ⟨fun a b => by
  rcases Nat.lt_trichotomy (l.count a) (l.count b) with h | h | h
  · exact Or.inr (Or.inl h)
  · rcases Nat.le_total (l.indexOf a) (l.indexOf b) with hi | hi
    · exact Or.inl (Or.inr ⟨h, hi⟩)
    · exact Or.inr (Or.inr ⟨h.symm, hi⟩)
  · exact Or.inl (Or.inl h)⟩

instance (l : List String) : IsTrans String (rankRel l) := ⟨fun a b c hab hbc => by
  rcases hab with h1 | ⟨h1, h1'⟩ <;> rcases hbc with h2 | ⟨h2, h2'⟩
  · exact Or.inl (by omega)
  · exact Or.inl (by omega)
  · exact Or.inl (by omega)
  · exact Or.inr ⟨by omega, le_trans h1' h2'⟩⟩

lemma stepRow_of_truthy (fetch : String → String) (r : Row)
    (h : truthyStr r.content_simple = true) : stepRow fetch r = (r, false) := by
  simp [stepRow, h]

lemma stepRow_of_fresh (fetch : String → String) (r : Row)
    (h1 : truthyStr r.content_simple = false) (h2 : pyStrip (r.url.getD "") ≠ "") :
    stepRow fetch r = (enrichRow fetch (pyStrip (r.url.getD "")) r, true) := by
  simp [stepRow, h1, h2]

lemma runRowsAux_truthy (fetch : String → String) :
    ∀ (rows : List Row) (idx : Nat), (∀ r ∈ rows, truthyStr r.content_simple = true) →
      runRowsAux fetch idx rows = (rows, [], [])
  | [], _, _ => rfl
  | r :: rs, idx, h => by
    have hr := h r (List.mem_cons_self r rs)
    have ih := runRowsAux_truthy fetch rs (idx + 1) (fun x hx => h x (List.mem_cons_of_mem r hx))
    simp [runRowsAux, stepRow_of_truthy fetch r hr, ih]

lemma runRowsAux_fresh_cps (fetch : String → String) :
    ∀ (rows : List Row) (idx : Nat),
      (∀ r ∈ rows, truthyStr r.content_simple = false ∧ pyStrip (r.url.getD "") ≠ "") →
      (runRowsAux fetch idx rows).2.2 = cadence idx rows.length
  | [], _, _ => rfl
  | r :: rs, idx, h => by
    have hr := h r (List.mem_cons_self r rs)
    have ih := runRowsAux_fresh_cps fetch rs (idx + 1) (fun x hx => h x (List.mem_cons_of_mem r hx))
    simp only [runRowsAux, stepRow_of_fresh fetch r hr.1 hr.2, List.length_cons, cadence, ih,
      Bool.true_and]

lemma runRowsAux_cps_sound (fetch : String → String) :
    ∀ (rows : List Row) (idx : Nat) (c : Nat), c ∈ (runRowsAux fetch idx rows).2.2 →
      c % 10 = 0 ∧ c ∈ (runRowsAux fetch idx rows).2.1
  | [], _, _, h => by simp [runRowsAux] at h
  | r :: rs, idx, c, h => by
    have ih := runRowsAux_cps_sound fetch rs (idx + 1) c
    simp only [runRowsAux, List.mem_append] at h ⊢
    rcases h with h | h
    · by_cases hc : (stepRow fetch r).2 && (idx + 1) % 10 == 0
      · rw [if_pos hc] at h
        simp only [List.mem_singleton] at h
        subst h
        simp only [Bool.and_eq_true, beq_iff_eq] at hc
        exact ⟨hc.2, Or.inl (by simp [hc.1])⟩
      · rw [if_neg hc] at h
        simp at h
    · exact ⟨(ih h).1, Or.inr (ih h).2⟩

lemma runRowsAux_cps_complete (fetch : String → String) :
    ∀ (rows : List Row) (idx : Nat) (c : Nat), c % 10 = 0 →
      c ∈ (runRowsAux fetch idx rows).2.1 → c ∈ (runRowsAux fetch idx rows).2.2
  | [], _, _, _, h => by simp [runRowsAux] at h
  | r :: rs, idx, c, hmod, h => by
    have ih := runRowsAux_cps_complete fetch rs (idx + 1) c hmod
    simp only [runRowsAux, List.mem_append] at h ⊢
    rcases h with h | h
    · by_cases hp : (stepRow fetch r).2 = true
      · rw [if_pos hp] at h
        simp only [List.mem_singleton] at h
        subst h
        refine Or.inl ?_
        rw [if_pos (by simp [hp, hmod])]
        simp
      · rw [if_neg hp] at h
        simp at h
    · exact Or.inr (ih h)

/-- Claim C1: if every record of the input table already has a nonempty
`content_simple`, the run changes no record, attempts no fetch and writes no
checkpoint — the output table equals the input table. -/
theorem claim_c1 (fetch : String → String) (rows : List Row)
    (h : ∀ r ∈ rows, truthyStr r.content_simple = true) :
    runRows fetch rows = (rows, [], []) :=
  runRowsAux_truthy fetch rows 0 h

theorem claim_c1_witness :
    (∀ r ∈ [rowDone, rowDone], truthyStr r.content_simple = true) ∧
      runRows fetchEmpty [rowDone, rowDone] = ([rowDone, rowDone], [], []) :=
  ⟨by decide, claim_c1 fetchEmpty [rowDone, rowDone] (by decide)⟩

/-- Claim C2, corrected: in every run — mixed tables included — a checkpoint
write happens exactly after the fetched rows whose 1-based table index (not
their position among the fetched records) is a multiple of 10: each such row
triggers a checkpoint and no other row does; over 25 fresh records the two
counts coincide and exactly two checkpoints are written, after rows 10
and 20. -/
theorem claim_c2_amended :
    (∀ (fetch : String → String) (rows : List Row) (c : Nat),
        c ∈ (runRows fetch rows).2.2 ↔ c % 10 = 0 ∧ c ∈ (runRows fetch rows).2.1) ∧
    (∀ (fetch : String → String) (rows : List Row), rows.length = 25 →
        (∀ r ∈ rows, truthyStr r.content_simple = false ∧ pyStrip (r.url.getD "") ≠ "") →
        (runRows fetch rows).2.2 = [10, 20]) := by
  constructor
  · intro fetch rows c
    constructor
    · exact fun h => runRowsAux_cps_sound fetch rows 0 c h
    · exact fun h => runRowsAux_cps_complete fetch rows 0 c h.1 h.2
  · intro fetch rows h25 hfresh
    rw [runRows, runRowsAux_fresh_cps fetch rows 0 hfresh, h25]
    decide

/-- Claim C2 fails as stated: with row 1 already enriched and rows 2-10
fresh, only 9 records are fetched, so no "10th fetched record" exists and
the stated cadence predicts no checkpoint — yet the code checkpoints at
table row 10, because line 189 tests the table row index `idx + 1`, not a
counter of fetched records. -/
theorem claim_c2_counterexample :
    (runRows fetchEmpty (rowDone :: List.replicate 9 rowFresh)).2.1.length = 9 ∧
      (runRows fetchEmpty (rowDone :: List.replicate 9 rowFresh)).2.2 = [10] := by
  decide

theorem claim_c2_witness :
    (runRows fetchEmpty (List.replicate 25 rowFresh)).2.2 = [10, 20] ∧
      10 ∈ (runRows fetchEmpty (rowDone :: List.replicate 9 rowFresh)).2.2 ∧
      (10 % 10 = 0 ∧ 10 ∈ (runRows fetchEmpty (List.replicate 25 rowFresh)).2.1) :=
  ⟨claim_c2_amended.2 fetchEmpty (List.replicate 25 rowFresh) (by decide) (by decide),
   (claim_c2_amended.1 fetchEmpty (rowDone :: List.replicate 9 rowFresh) 10).mpr
     ⟨by decide, by decide⟩,
   (claim_c2_amended.1 fetchEmpty (List.replicate 25 rowFresh) 10).mp (by decide)⟩

/-- Claim C9: a checkpoint write occurs only on a loop iteration that
actually attempted a fetch; rows skipped for existing content or for a blank
url never trigger one, whatever their index. -/
theorem claim_c9 (fetch : String → String) (rows : List Row) (c : Nat)
    (h : c ∈ (runRows fetch rows).2.2) : c ∈ (runRows fetch rows).2.1 :=
  (runRowsAux_cps_sound fetch rows 0 c h).2

theorem claim_c9_witness :
    10 ∈ (runRows fetchEmpty (List.replicate 10 rowFresh)).2.2 ∧
      10 ∈ (runRows fetchEmpty (List.replicate 10 rowFresh)).2.1 :=
  ⟨by decide, claim_c9 fetchEmpty (List.replicate 10 rowFresh) 10 (by decide)⟩

lemma le_halfEvenRound (q : ℚ) : ⌊q⌋ ≤ halfEvenRound q := by
  unfold halfEvenRound
  split_ifs <;> omega

lemma halfEvenRound_le (q : ℚ) : halfEvenRound q ≤ ⌊q⌋ + 1 := by
  unfold halfEvenRound
  split_ifs <;> omega

lemma halfEvenRound_intCast (z : ℤ) : halfEvenRound (z : ℚ) = z := by
  unfold halfEvenRound
  norm_num

lemma pyRound_zero (n : Nat) : pyRound n 0 = 0 := by
  rw [pyRound, zero_mul, show ((0:ℚ)) = ((0:ℤ):ℚ) by norm_num, halfEvenRound_intCast]
  norm_num

lemma pyRound_one (n : Nat) : pyRound n 1 = 1 := by
  have hc : ((10:ℚ))^n = ((10^n : ℤ) : ℚ) := by push_cast; ring
  rw [pyRound, one_mul, hc, halfEvenRound_intCast, ← hc, div_self (by positivity)]

lemma pyRound_le_one (n : Nat) (q : ℚ) (h : q ≤ 1) : pyRound n q ≤ 1 := by
  rw [pyRound, div_le_one (by positivity)]
  have hx : q * 10 ^ n ≤ ((10 ^ n : ℤ) : ℚ) := by
    push_cast
    calc q * 10 ^ n ≤ 1 * 10 ^ n := by
          exact mul_le_mul_of_nonneg_right h (by positivity)
      _ = 10 ^ n := one_mul _
  rcases eq_or_lt_of_le hx with heq | hlt
  · rw [heq, halfEvenRound_intCast]
    push_cast
    exact le_refl _
  · have h1 : ⌊q * 10 ^ n⌋ < (10 : ℤ) ^ n := by
      rw [Int.floor_lt]
      push_cast
      push_cast at hlt
      exact hlt
    have h2 : halfEvenRound (q * 10 ^ n) ≤ (10 : ℤ) ^ n :=
      le_trans (halfEvenRound_le _) (by omega)
    calc ((halfEvenRound (q * 10 ^ n) : ℤ) : ℚ) ≤ (((10:ℤ) ^ n : ℤ) : ℚ) := by
          exact_mod_cast h2
      _ = 10 ^ n := by push_cast; ring

lemma neg_one_le_pyRound (n : Nat) (q : ℚ) (h : -1 ≤ q) : -1 ≤ pyRound n q := by
  rw [pyRound, le_div_iff₀ (by positivity)]
  have hx : ((-(10 ^ n) : ℤ) : ℚ) ≤ q * 10 ^ n := by
    push_cast
    have := mul_le_mul_of_nonneg_right h (show (0:ℚ) ≤ 10 ^ n by positivity)
    linarith
  have h1 : (-(10 ^ n) : ℤ) ≤ ⌊q * 10 ^ n⌋ := Int.le_floor.mpr hx
  have h2 : (-(10 ^ n) : ℤ) ≤ halfEvenRound (q * 10 ^ n) :=
    le_trans h1 (le_halfEvenRound _)
  have h3 : ((-(10 ^ n) : ℤ) : ℚ) ≤ ((halfEvenRound (q * 10 ^ n) : ℤ) : ℚ) := by
    exact_mod_cast h2
  push_cast at h3
  linarith

/-- Claim C5: the sentiment score always lies in `[-1, 1]`; it is exactly 0
when no token matches either lexicon, and otherwise it is the rounded ratio
`(pos - neg) / (pos + neg)`. -/
theorem claim_c5 (text : String) :
    (-1 ≤ simple_sentiment text ∧ simple_sentiment text ≤ 1) ∧
    (posCount text + negCount text = 0 → simple_sentiment text = 0) ∧
    (posCount text + negCount text ≠ 0 →
      simple_sentiment text =
        pyRound 3 (((posCount text : ℚ) - (negCount text : ℚ)) /
                   ((posCount text : ℚ) + (negCount text : ℚ)))) := by
  refine ⟨?_, fun h0 => by simp [simple_sentiment, h0], fun hne => by simp [simple_sentiment, hne]⟩
  by_cases h0 : posCount text + negCount text = 0
  · norm_num [simple_sentiment, h0]
  · have hd : (0 : ℚ) < (posCount text : ℚ) + (negCount text : ℚ) := by
      have : (0 : ℚ) < ((posCount text + negCount text : ℕ) : ℚ) := by
        exact_mod_cast Nat.pos_of_ne_zero h0
      push_cast at this
      linarith
    have hnn : (0 : ℚ) ≤ (negCount text : ℚ) := Nat.cast_nonneg _
    have hpn : (0 : ℚ) ≤ (posCount text : ℚ) := Nat.cast_nonneg _
    have hub : ((posCount text : ℚ) - (negCount text : ℚ)) /
        ((posCount text : ℚ) + (negCount text : ℚ)) ≤ 1 := by
      rw [div_le_one hd]
      linarith
    have hlb : (-1 : ℚ) ≤ ((posCount text : ℚ) - (negCount text : ℚ)) /
        ((posCount text : ℚ) + (negCount text : ℚ)) := by
      rw [le_div_iff₀ hd]
      linarith
    simp only [simple_sentiment, h0, if_false]
    exact ⟨neg_one_le_pyRound 3 _ hlb, pyRound_le_one 3 _ hub⟩

theorem claim_c5_witness :
    (-1 ≤ simple_sentiment "good bad bad" ∧ simple_sentiment "good bad bad" ≤ 1) ∧
      simple_sentiment "good bad bad" =
        pyRound 3 (((posCount "good bad bad" : ℚ) - (negCount "good bad bad" : ℚ)) /
                   ((posCount "good bad bad" : ℚ) + (negCount "good bad bad" : ℚ))) :=
  ⟨(claim_c5 "good bad bad").1, (claim_c5 "good bad bad").2.2 (by decide)⟩

/-- Claim C10: whenever the positive and negative lexicon counts agree the
score is exactly 0, also when both are nonzero (the ratio is `0 / (2·pos)`
and rounding preserves 0). -/
theorem claim_c10 (text : String) (h : posCount text = negCount text) :
    simple_sentiment text = 0 := by
  by_cases h0 : posCount text + negCount text = 0
  · simp [simple_sentiment, h0]
  · have hz : ((posCount text : ℚ) - (negCount text : ℚ)) = 0 := by
      rw [h]
      ring
    simp [simple_sentiment, h0, hz, pyRound_zero]

theorem claim_c10_witness : simple_sentiment "good bad" = 0 :=
  claim_c10 "good bad" (by decide)

/-- Claim C6 fails as stated: under the algorithm both the claim and the
code describe — two vowel runs in `simple`, then the silent-`e` rule fires
because the word ends in `e` and the count 2 exceeds 1 — the result for
`"simple"` is 1, not the claimed 2. -/
theorem claim_c6_counterexample :
    ¬ (estimate_syllables "simple" = 2 ∧ estimate_syllables "the" = 1 ∧
        estimate_syllables "" = 0) := by
  decide

/-- Claim C6, corrected: `estimate_syllables` returns 1 for `"simple"` (the
silent-`e` subtraction applies to its two vowel runs), 1 for `"the"` and 0
for the empty string. -/
theorem claim_c6_amended :
    estimate_syllables "simple" = 1 ∧ estimate_syllables "the" = 1 ∧
      estimate_syllables "" = 0 := by
  decide

/-- Claim C3 fails as stated: the extracted prose "Good growth, strong
profit." tokenizes to 4 words, not 5, so `word_count` is 4 and
`reading_time_min` is `round(4/200, 2) = 0.02`, not 0.03; the claimed
sentiment 1.0 does hold (all four tokens are positive-lexicon words). -/
theorem claim_c3_counterexample :
    ¬ ((stepRow fetchC3 rowC3).1.word_count = some (.vNat 5) ∧
       (stepRow fetchC3 rowC3).1.sentiment_simple = some (.vRat 1) ∧
       (stepRow fetchC3 rowC3).1.reading_time_min = some (.vRat (3/100))) := by
  intro h
  have h4 : (stepRow fetchC3 rowC3).1.word_count = some (.vNat 4) := by decide
  exact absurd (h4.symm.trans h.1) (by decide)

/-- Claim C3, corrected: on the end-to-end scenario the Orchestrator computes
`word_count = 4`, sentiment score `1.0` (4 positive matches, 0 negative) and
`reading_time_min = 0.02`. -/
theorem claim_c3_amended :
    (stepRow fetchC3 rowC3).1.word_count = some (.vNat 4) ∧
      (stepRow fetchC3 rowC3).1.sentiment_simple = some (.vRat 1) ∧
      (stepRow fetchC3 rowC3).1.reading_time_min = some (.vRat (1/50)) := by
  have hstep : stepRow fetchC3 rowC3 =
      (enrichRow fetchC3 "http://x/a" rowC3, true) := by rfl
  have hcontent : extract_text_from_html (fetchC3 "http://x/a") =
      "Good growth, strong profit." := by decide
  have hwc : (tokenize_words "Good growth, strong profit.").length = 4 := by decide
  have hsent : simple_sentiment "Good growth, strong profit." = 1 := by
    have hp : posCount "Good growth, strong profit." = 4 := by decide
    have hn : negCount "Good growth, strong profit." = 0 := by decide
    rw [simple_sentiment, hp, hn]
    norm_num
    exact pyRound_one 3
  have hread : pyRound 2 ((1 : ℚ) / 50) = 1/50 := by
    have hx : (1 : ℚ) / 50 * 10 ^ 2 = ((2 : ℤ) : ℚ) := by push_cast; norm_num
    rw [pyRound, hx, halfEvenRound_intCast]
    norm_num
  rw [hstep]
  simp only [enrichRow, hcontent, hwc]
  norm_num
  exact ⟨hsent, hread⟩

lemma mem_firstOccList : ∀ (l : List String) (x : String), x ∈ firstOccList l ↔ x ∈ l
  | [], x => by simp [firstOccList]
  | w :: ws, x => by
    simp only [firstOccList, List.mem_cons, List.mem_filter, bne_iff_ne, ne_eq,
      mem_firstOccList ws x]
    by_cases hxw : x = w
    · simp [hxw]
    · simp [hxw]

lemma nodup_firstOccList : ∀ (l : List String), (firstOccList l).Nodup
  | [] => List.nodup_nil
  | w :: ws => by
    rw [firstOccList, List.nodup_cons]
    refine ⟨fun hmem => ?_, (nodup_firstOccList ws).filter _⟩
    have := (List.mem_filter.mp hmem).2
    simp at this

lemma mem_of_mem_topKeywordsList {text w} (h : w ∈ topKeywordsList text) :
    w ∈ qualifying text := by
  rw [topKeywordsList, mostCommon] at h
  have h1 := List.mem_of_mem_take h
  rw [List.mem_insertionSort, mem_firstOccList] at h1
  exact h1

/-- Claim C7: no keyword the extractor returns is a stopword, has length at
most 2, or is purely numeric — the ranked list only draws from the filtered
token list of line 122. -/
theorem claim_c7 (text : String) (w : String) (h : w ∈ topKeywordsList text) :
    w ∉ STOPWORDS ∧ 2 < w.length ∧ pyIsDigit w = false := by
  have h1 := mem_of_mem_topKeywordsList h
  have h2 := (List.mem_filter.mp h1).2
  simp only [Bool.and_eq_true, decide_eq_true_eq, Bool.not_eq_true'] at h2
  exact ⟨h2.1.1, h2.1.2, h2.2⟩

theorem claim_c7_witness :
    "category" ∉ STOPWORDS ∧ 2 < "category".length ∧ pyIsDigit "category" = false :=
  claim_c7 "the cat category 42 9999" "category" (by decide)

/-- Claim C8: in the returned keyword ranking an earlier entry never has a
smaller frequency than a later one, and two entries of equal frequency are
ordered by the position of their first occurrence in the qualifying token
sequence — the stable tie-break of `Counter.most_common`. -/
theorem claim_c8 (text : String) (i j : Nat) (hij : i < j)
    (hj : j < (topKeywordsList text).length) :
    (qualifying text).count ((topKeywordsList text).get ⟨j, hj⟩) ≤
      (qualifying text).count ((topKeywordsList text).get ⟨i, lt_trans hij hj⟩) ∧
    ((qualifying text).count ((topKeywordsList text).get ⟨i, lt_trans hij hj⟩) =
        (qualifying text).count ((topKeywordsList text).get ⟨j, hj⟩) →
      (qualifying text).indexOf ((topKeywordsList text).get ⟨i, lt_trans hij hj⟩) <
        (qualifying text).indexOf ((topKeywordsList text).get ⟨j, hj⟩)) := by
  have hpair : (topKeywordsList text).Pairwise (rankRel (qualifying text)) := by
    rw [topKeywordsList, mostCommon]
    exact List.Pairwise.sublist (List.take_sublist 8 _)
      (List.sorted_insertionSort (rankRel (qualifying text)) (firstOccList (qualifying text)))
  have hnd : (topKeywordsList text).Nodup := by
    rw [topKeywordsList, mostCommon]
    exact List.Nodup.sublist (List.take_sublist 8 _)
      ((List.perm_insertionSort (rankRel (qualifying text))
          (firstOccList (qualifying text))).nodup_iff.mpr
        (nodup_firstOccList (qualifying text)))
  have hrel : rankRel (qualifying text) ((topKeywordsList text).get ⟨i, lt_trans hij hj⟩)
      ((topKeywordsList text).get ⟨j, hj⟩) := by
    have := List.pairwise_iff_getElem.mp hpair i j (lt_trans hij hj) hj hij
    simpa [List.get_eq_getElem] using this
  have hne : (topKeywordsList text).get ⟨i, lt_trans hij hj⟩ ≠
      (topKeywordsList text).get ⟨j, hj⟩ := by
    intro he
    simp only [List.get_eq_getElem] at he
    have := (List.Nodup.getElem_inj_iff hnd).mp he
    omega
  have hmi : (topKeywordsList text).get ⟨i, lt_trans hij hj⟩ ∈ qualifying text :=
    mem_of_mem_topKeywordsList (List.get_mem _ _ _)
  have hmj : (topKeywordsList text).get ⟨j, hj⟩ ∈ qualifying text :=
    mem_of_mem_topKeywordsList (List.get_mem _ _ _)
  rcases hrel with hlt | ⟨heq, hle⟩
  · exact ⟨le_of_lt hlt, fun he => absurd (he ▸ hlt) (lt_irrefl _)⟩
  · refine ⟨le_of_eq heq.symm, fun _ => lt_of_le_of_ne hle fun hidx => hne ?_⟩
    have hi' : (qualifying text).indexOf
        ((topKeywordsList text).get ⟨i, lt_trans hij hj⟩) < (qualifying text).length :=
      List.indexOf_lt_length.mpr hmi
    have hj' : (qualifying text).indexOf
        ((topKeywordsList text).get ⟨j, hj⟩) < (qualifying text).length :=
      List.indexOf_lt_length.mpr hmj
    have e1 := List.getElem_indexOf hi'
    have e2 := List.getElem_indexOf hj'
    rw [← e1, ← e2]
    congr 1

theorem claim_c8_witness :
    (qualifying "bbb ccc bbb ddd ccc").count
        ((topKeywordsList "bbb ccc bbb ddd ccc").get ⟨1, by decide⟩) ≤
      (qualifying "bbb ccc bbb ddd ccc").count
        ((topKeywordsList "bbb ccc bbb ddd ccc").get ⟨0, by decide⟩) ∧
    ((qualifying "bbb ccc bbb ddd ccc").count
        ((topKeywordsList "bbb ccc bbb ddd ccc").get ⟨0, by decide⟩) =
      (qualifying "bbb ccc bbb ddd ccc").count
        ((topKeywordsList "bbb ccc bbb ddd ccc").get ⟨1, by decide⟩) →
      (qualifying "bbb ccc bbb ddd ccc").indexOf
          ((topKeywordsList "bbb ccc bbb ddd ccc").get ⟨0, by decide⟩) <
        (qualifying "bbb ccc bbb ddd ccc").indexOf
          ((topKeywordsList "bbb ccc bbb ddd ccc").get ⟨1, by decide⟩)) :=
  claim_c8 "bbb ccc bbb ddd ccc" 0 1 (by decide) (by decide)

lemma lcs_append (a b : List Char) : lcs (a ++ b) = lcs a ++ lcs b := List.map_append _ a b

lemma lcs_length (l : List Char) : (lcs l).length = l.length := List.length_map l _

lemma lcs_eq_nil_iff {l : List Char} : lcs l = [] ↔ l = [] := by
  simp [lcs]

lemma splitAtChar_append {ch : Char} :
    ∀ (l r : List Char), (∀ c ∈ l, c ≠ ch) → splitAtChar ch (l ++ ch :: r) = some (l, r)
  | [], r, _ => by simp [splitAtChar]
  | c :: cs, r, h => by
    have hc : c ≠ ch := h c (List.mem_cons_self c cs)
    have ih := splitAtChar_append cs r (fun x hx => h x (List.mem_cons_of_mem c hx))
    simp [splitAtChar, hc, ih]

lemma splitAtPatCI_none (pat : List Char) (hne : pat ≠ []) :
    ∀ (s : List Char), ¬ pat <:+: lcs s → splitAtPatCI pat s = none
  | [], _ => by simp [splitAtPatCI, hne]
  | c :: cs, h => by
    have hp : ¬ pat <+: lcs (c :: cs) := fun hp => h hp.isInfix
    have htl : ¬ pat <:+: lcs cs := by
      intro hi
      exact h (by simpa [lcs] using List.infix_cons (a := c.toLower) hi)
    have ih := splitAtPatCI_none pat hne cs htl
    simp [splitAtPatCI, hp, ih]

lemma findOpen_none (tag : List Char) :
    ∀ (s : List Char), ¬ ('<' :: tag) <:+: lcs s → findOpen tag s = none
  | [], _ => rfl
  | c :: cs, h => by
    have hp : ¬ ('<' :: tag) <+: lcs (c :: cs) := fun hp => h hp.isInfix
    have htl : ¬ ('<' :: tag) <:+: lcs cs := by
      intro hi
      exact h (by simpa [lcs] using List.infix_cons (a := c.toLower) hi)
    have ih := findOpen_none tag cs htl
    simp [findOpen, hp, ih]

lemma no_straddle (p x R : List Char) (hne : '<' ∉ p)
    (hx : ¬ ('<' :: p) <:+: lcs x) (hxne : x ≠ []) :
    ¬ ('<' :: p) <+: (lcs x ++ ('<' :: p) ++ R) := by
  intro hpre
  rcases Nat.lt_or_ge (lcs x).length (p.length + 1) with hm | hm
  · have hn : (lcs x).length < ('<' :: p).length := by
      simpa using hm
    have hg := hpre.getElem hn
    have hA? : (lcs x ++ ('<' :: p) ++ R)[(lcs x).length]? = some '<' := by
      rw [List.append_assoc, List.getElem?_append_right (le_refl (lcs x).length)]
      simp
    have hp? : ('<' :: p)[(lcs x).length]? = some '<' := by
      rw [List.getElem?_eq_getElem hn, hg, ← List.getElem?_eq_getElem]
      exact hA?
    have hlen1 : 1 ≤ (lcs x).length := by
      rw [lcs_length]
      exact List.length_pos.mpr hxne
    obtain ⟨k, hk⟩ := Nat.exists_eq_add_of_le hlen1
    rw [hk, Nat.add_comm] at hp?
    simp only [List.getElem?_cons_succ] at hp?
    exact hne (List.getElem?_mem hp?)
  · have h2 : ('<' :: p) <+: lcs x := by
      have ha : ('<' :: p) <+: lcs x ++ (('<' :: p) ++ R) := by
        rw [← List.append_assoc]
        exact hpre
      have hb : lcs x <+: lcs x ++ (('<' :: p) ++ R) := List.prefix_append _ _
      exact List.prefix_of_prefix_length_le ha hb (by simpa using hm)
    exact hx h2.isInfix

lemma findOpen_found (tag : List Char) (hne : '<' ∉ tag) :
    ∀ (x topen attrs rest : List Char), ¬ ('<' :: tag) <:+: lcs x → lcs topen = '<' :: tag →
      (∀ c ∈ attrs, c ≠ '>') → (∀ a, attrs.head? = some a → isWordChar a = false) →
      findOpen tag (x ++ topen ++ attrs ++ '>' :: rest) = some rest
  | [], topen, attrs, rest, _, hto, hattrs, hb => by
    rcases hto' : topen with _ | ⟨t0, ts⟩
    · rw [hto'] at hto
      simp [lcs] at hto
    · subst hto'
      have hlen : (t0 :: ts).length = tag.length + 1 := by
        rw [← lcs_length (t0 :: ts), hto]
        simp
      have hcond : ('<' :: tag).isPrefixOf (lcs ((t0 :: ts) ++ (attrs ++ '>' :: rest))) = true := by
        rw [ List.isPrefixOf_iff_prefix, lcs_append, hto]
        exact List.prefix_append _ _
      have hdrop : ((t0 :: ts) ++ (attrs ++ '>' :: rest)).drop (tag.length + 1) =
          attrs ++ '>' :: rest := List.drop_left' hlen
      simp only [List.nil_append, List.append_assoc]
      simp only [List.cons_append] at hcond hdrop ⊢
      rw [findOpen, if_pos hcond, hdrop]
      rcases attrs with _ | ⟨a, as⟩
      · have hw : isWordChar '>' = false := by decide
        simp [hw, splitAtChar]
      · have hw : isWordChar a = false := hb a rfl
        have hsp : splitAtChar '>' ((a :: as) ++ '>' :: rest) = some (a :: as, rest) :=
          splitAtChar_append (a :: as) rest hattrs
        simp only [List.cons_append] at hsp
        simp [hw, hsp]
  | c :: x', topen, attrs, rest, hx, hto, hattrs, hb => by
    have hx' : ¬ ('<' :: tag) <:+: lcs x' := by
      intro hi
      exact hx (by simpa [lcs] using List.infix_cons (a := c.toLower) hi)
    have ih := findOpen_found tag hne x' topen attrs rest hx' hto hattrs hb
    have hsplit : lcs ((c :: x') ++ topen ++ attrs ++ '>' :: rest) =
        lcs (c :: x') ++ ('<' :: tag) ++ (lcs attrs ++ lcs ('>' :: rest)) := by
      simp only [List.append_assoc, lcs_append, hto]
    have hnp : ¬ ('<' :: tag) <+: lcs ((c :: x') ++ topen ++ attrs ++ '>' :: rest) := by
      rw [hsplit]
      exact no_straddle tag (c :: x') _ hne hx (by simp)
    have hcond : ('<' :: tag).isPrefixOf (lcs ((c :: x') ++ topen ++ attrs ++ '>' :: rest)) =
        false := by
      rw [Bool.eq_false_iff]
      intro htrue
      exact hnp ( List.isPrefixOf_iff_prefix.mp htrue)
    simp only [List.cons_append] at hcond ⊢
    rw [findOpen, if_neg (by rw [hcond]; exact Bool.false_ne_true)]
    simpa only [List.append_assoc] using ih

lemma splitAtPatCI_found (p : List Char) (hne : '<' ∉ p) :
    ∀ (b mid r : List Char), ¬ ('<' :: p) <:+: lcs b → lcs mid = '<' :: p →
      splitAtPatCI ('<' :: p) (b ++ mid ++ r) = some (b, r)
  | [], mid, r, _, hmid => by
    rcases hmid' : mid with _ | ⟨m0, ms⟩
    · rw [hmid'] at hmid
      simp [lcs] at hmid
    · subst hmid'
      have hlen : (m0 :: ms).length = p.length + 1 := by
        rw [← lcs_length (m0 :: ms), hmid]
        simp
      have hcond : ('<' :: p).isPrefixOf (lcs ((m0 :: ms) ++ r)) = true := by
        rw [ List.isPrefixOf_iff_prefix, lcs_append, hmid]
        exact List.prefix_append _ _
      have hdrop : ((m0 :: ms) ++ r).drop (('<' :: p).length) = r := by
        apply List.drop_left'
        rw [hlen]
        simp
      simp only [List.nil_append, List.cons_append] at hcond hdrop ⊢
      rw [splitAtPatCI, if_pos hcond]
      rw [List.length_cons] at hdrop
      simp [hdrop]
  | c :: b', mid, r, hb, hmid => by
    have hb' : ¬ ('<' :: p) <:+: lcs b' := by
      intro hi
      exact hb (by simpa [lcs] using List.infix_cons (a := c.toLower) hi)
    have ih := splitAtPatCI_found p hne b' mid r hb' hmid
    have hsplit : lcs ((c :: b') ++ mid ++ r) =
        lcs (c :: b') ++ ('<' :: p) ++ lcs r := by
      simp only [List.append_assoc, lcs_append, hmid]
    have hnp : ¬ ('<' :: p) <+: lcs ((c :: b') ++ mid ++ r) := by
      rw [hsplit]
      exact no_straddle p (c :: b') _ hne hb (by simp)
    have hcond : ('<' :: p).isPrefixOf (lcs ((c :: b') ++ mid ++ r)) = false := by
      rw [Bool.eq_false_iff]
      intro htrue
      exact hnp ( List.isPrefixOf_iff_prefix.mp htrue)
    simp only [List.cons_append] at hcond ⊢
    rw [splitAtPatCI, if_neg (by rw [hcond]; exact Bool.false_ne_true)]
    rw [ih]
    rfl

lemma searchBlock_none (tag s : List Char) (h : ¬ ('<' :: tag) <:+: lcs s) :
    searchBlock tag s = none := by
  rw [searchBlock, findOpen_none tag s h]

lemma searchBlock_found (tag : List Char) (hne : '<' ∉ tag)
    (hne2 : '<' ∉ ('/' :: (tag ++ ['>'])))
    (pre topen attrs body tclose post : List Char)
    (hpre : ¬ ('<' :: tag) <:+: lcs pre) (hto : lcs topen = '<' :: tag)
    (hattrs : ∀ c ∈ attrs, c ≠ '>')
    (hb : ∀ a, attrs.head? = some a → isWordChar a = false)
    (htc : lcs tclose = closePat tag) (hbody : ¬ closePat tag <:+: lcs body) :
    searchBlock tag (pre ++ topen ++ attrs ++ '>' :: (body ++ tclose ++ post)) = some body := by
  rw [searchBlock,
    findOpen_found tag hne pre topen attrs (body ++ tclose ++ post) hpre hto hattrs hb]
  have hc : closePat tag = '<' :: ('/' :: (tag ++ ['>'])) := rfl
  rw [hc] at htc hbody
  dsimp only
  rw [hc, splitAtPatCI_found ('/' :: (tag ++ ['>'])) hne2 body tclose post hbody htc]

/-- Claim C4: the extractor selects content in priority order — a
case-insensitively matched `<article>` block if one exists, else a `<main>`
block, else the `<p>` blocks in document order — and for every input whose
entity-decoded text contains a well-formed `<article>` block (an opening tag
closed by `>`, no earlier `<article` occurrence, and a matching `</article>`
with no earlier close inside the body), the result is exactly the text
inside that block after the tag-stripping cleanup, entities having been
decoded first. -/
theorem claim_c4 :
    (∀ (input : String) (pre topen attrs body tclose post : List Char),
        unescapeChars input.toList =
          pre ++ topen ++ attrs ++ '>' :: (body ++ tclose ++ post) →
        lcs topen = '<' :: "article".toList →
        lcs tclose = closePat "article".toList →
        ¬ ('<' :: "article".toList) <:+: lcs pre →
        (∀ c ∈ attrs, c ≠ '>') →
        (∀ a, attrs.head? = some a → isWordChar a = false) →
        ¬ closePat "article".toList <:+: lcs body →
        extract_text_from_html input = String.mk (cleanContent body)) ∧
    (∀ (input : String) (pre topen attrs body tclose post : List Char),
        unescapeChars input.toList =
          pre ++ topen ++ attrs ++ '>' :: (body ++ tclose ++ post) →
        ¬ ('<' :: "article".toList) <:+: lcs (unescapeChars input.toList) →
        lcs topen = '<' :: "main".toList →
        lcs tclose = closePat "main".toList →
        ¬ ('<' :: "main".toList) <:+: lcs pre →
        (∀ c ∈ attrs, c ≠ '>') →
        (∀ a, attrs.head? = some a → isWordChar a = false) →
        ¬ closePat "main".toList <:+: lcs body →
        extract_text_from_html input = String.mk (cleanContent body)) ∧
    (∀ (input : String), input ≠ "" →
        ¬ ('<' :: "article".toList) <:+: lcs (unescapeChars input.toList) →
        ¬ ('<' :: "main".toList) <:+: lcs (unescapeChars input.toList) →
        extract_text_from_html input =
          String.mk (cleanContent
            (List.intercalate ['\n'] (findAllP (unescapeChars input.toList))))) := by
  refine ⟨?_, ?_, ?_⟩
  · intro input pre topen attrs body tclose post h hto htc hpre hattrs hb hbody
    have hne' : input ≠ "" := by
      intro he
      subst he
      simp [unescapeChars, unescapeAux] at h
    have hsb : searchBlock "article".toList (unescapeChars input.toList) = some body := by
      rw [h]
      exact searchBlock_found "article".toList (by decide) (by decide)
        pre topen attrs body tclose post hpre hto hattrs hb htc hbody
    simp only [extract_text_from_html, if_neg hne', extractFromDecoded, hsb]
  · intro input pre topen attrs body tclose post h hart hto htc hpre hattrs hb hbody
    have hne' : input ≠ "" := by
      intro he
      subst he
      simp [unescapeChars, unescapeAux] at h
    have hA : searchBlock "article".toList (unescapeChars input.toList) = none :=
      searchBlock_none _ _ hart
    have hM : searchBlock "main".toList (unescapeChars input.toList) = some body := by
      rw [h]
      exact searchBlock_found "main".toList (by decide) (by decide)
        pre topen attrs body tclose post hpre hto hattrs hb htc hbody
    simp only [extract_text_from_html, if_neg hne', extractFromDecoded, hA, hM]
  · intro input hne' hart hmain
    have hA : searchBlock "article".toList (unescapeChars input.toList) = none :=
      searchBlock_none _ _ hart
    have hM : searchBlock "main".toList (unescapeChars input.toList) = none :=
      searchBlock_none _ _ hmain
    simp only [extract_text_from_html, if_neg hne', extractFromDecoded, hA, hM]

theorem claim_c4_witness :
    extract_text_from_html "<article>Hi &amp; bye</article>" = "Hi & bye" ∧
      extract_text_from_html "plain text" = "" := by
  constructor
  · have h := claim_c4.1 "<article>Hi &amp; bye</article>" [] "<article".toList []
      "Hi & bye".toList "</article>".toList [] (by decide) (by decide) (by decide)
      (by decide) (fun c hc => absurd hc (List.not_mem_nil c))
      (fun a ha => Option.noConfusion ha) (by decide)
    rw [h]
    decide
  · have h := claim_c4.2.2 "plain text" (by decide) (by decide) (by decide)
    rw [h]
    decide
